import Mathlib

/-!
Verification of the shared bounded multi-key price buffer and the
statistic consumers of the Stock-Simulator repository.

The embedding follows the C++ sources:
* `PriceData` and `SharedBuffer` with `push`, `getLatest`, `getHistory`,
  `waitForData`, `getSymbols`, `shutdown` (here `shutdownNow`), `getStats`
  come from `SharedBuffer.h`.  The per-symbol map is modelled as an
  association list (key order is irrelevant to all properties proved
  here); a C++ double is modelled as a rational number.
* `push` is decomposed into its three statements under the lock
  (`appendRaw`, `trimKey`, `incWrites`); this decomposition is used by
  the fine-grained interleaving model further below.
* The volatility and SMA consumers come from `VolatilityCalculator.h`
  and `SMACalculator.h`; the producer price update comes from
  `PriceGenerator.h`.
-/

namespace StockSim

/-- One price tick: `PriceData` from `PriceData.h` (symbol, price, change,
timestamp).  The high-resolution timestamp is modelled as a natural
number; prices and changes as rationals. -/
structure PriceData where
  symbol : String
  price : ℚ
  change : ℚ
  timestamp : Nat
deriving DecidableEq, Repr

/-- The state of `SharedBuffer` from `SharedBuffer.h`: the
`symbol -> deque<PriceData>` map (as an association list), the capacity
`max_history_size_`, the shutdown flag and the two statistics counters. -/
structure SharedBuffer where
  price_history : List (String × List PriceData)
  max_history_size : Nat
  shutdown : Bool
  total_writes : Nat
  total_reads : Nat
deriving DecidableEq, Repr

/-- `price_history_.find(symbol)`: lookup in the association list. -/
def lookupHistory (m : List (String × List PriceData)) (s : String) :
    Option (List PriceData) :=
  match m with
  | [] => none
  | (k, h) :: rest => if k = s then some h else lookupHistory rest s

/-- `price_history_[data.symbol].push_back(data)`: append `d` at the tail
of the history of `s`, creating the (empty, then one-element) history
when the key is absent — exactly what `operator[]` followed by
`push_back` does. -/
def appendEntry (m : List (String × List PriceData)) (s : String)
    (d : PriceData) : List (String × List PriceData) :=
  match m with
  | [] => [(s, [d])]
  | (k, h) :: rest =>
    if k = s then (k, h ++ [d]) :: rest else (k, h) :: appendEntry rest s d

/-- `if (history.size() > max_history_size_) history.pop_front();` applied
to the history of key `s`. -/
def trimEntry (m : List (String × List PriceData)) (s : String)
    (cap : Nat) : List (String × List PriceData) :=
  match m with
  | [] => []
  | (k, h) :: rest =>
    if k = s then (k, if h.length > cap then h.tail else h) :: rest
    else (k, h) :: trimEntry rest s cap

/-- First statement of `SharedBuffer::push` under the lock. -/
def SharedBuffer.appendRaw (b : SharedBuffer) (d : PriceData) : SharedBuffer :=
  { b with price_history := appendEntry b.price_history d.symbol d }

/-- Second statement of `SharedBuffer::push` under the lock (the circular
buffer trim). -/
def SharedBuffer.trimKey (b : SharedBuffer) (s : String) : SharedBuffer :=
  { b with price_history := trimEntry b.price_history s b.max_history_size }

/-- Third statement of `SharedBuffer::push` under the lock:
`++total_writes_`. -/
def SharedBuffer.incWrites (b : SharedBuffer) : SharedBuffer :=
  { b with total_writes := b.total_writes + 1 }

/-- `SharedBuffer::push`: append, trim to capacity, count the write.
(The subsequent `notify_all` has no effect on the stored state.) -/
def SharedBuffer.push (b : SharedBuffer) (d : PriceData) : SharedBuffer :=
  ((b.appendRaw d).trimKey d.symbol).incWrites

/-- `SharedBuffer::getLatest`: returns `back()` of the history and bumps
`total_reads_` when the key exists and its history is non-empty;
otherwise returns not-found and leaves the buffer untouched.  The C++
out-parameter plus `bool` is modelled as an `Option`. -/
def SharedBuffer.getLatest (b : SharedBuffer) (s : String) :
    Option PriceData × SharedBuffer :=
  match lookupHistory b.price_history s with
  | some h =>
    match h.getLast? with
    | some d => (some d, { b with total_reads := b.total_reads + 1 })
    | none => (none, b)
  | none => (none, b)

/-- The copy loop of `SharedBuffer::getHistory`:
`start = (size > count) ? size - count : 0` and push elements
`start .. size-1` oldest-first. -/
def tailSlice (h : List PriceData) (count : Nat) : List PriceData :=
  h.drop (if h.length > count then h.length - count else 0)

/-- `SharedBuffer::getHistory`: snapshot copy of the most recent `count`
elements, oldest-first; `total_reads_` is bumped whenever the key
exists; an unknown key yields the empty vector and no state change. -/
def SharedBuffer.getHistory (b : SharedBuffer) (s : String) (count : Nat) :
    List PriceData × SharedBuffer :=
  match lookupHistory b.price_history s with
  | some h => (tailSlice h count, { b with total_reads := b.total_reads + 1 })
  | none => ([], b)

/-- `SharedBuffer::getSymbols`: the keys of the map. -/
def SharedBuffer.getSymbols (b : SharedBuffer) : List String :=
  b.price_history.map Prod.fst

/-- `SharedBuffer::shutdown`: set the shutdown flag (then `notify_all`). -/
def SharedBuffer.shutdownNow (b : SharedBuffer) : SharedBuffer :=
  { b with shutdown := true }

/-- The wake predicate of `SharedBuffer::waitForData`:
`shutdown_ || total_writes_ > 0`. -/
def SharedBuffer.wakePredicate (b : SharedBuffer) : Bool :=
  b.shutdown || decide (0 < b.total_writes)

/-- `SharedBuffer::waitForData`: `cv.wait_for` returns the value of the
predicate when the wait ends.  If the predicate already holds at entry
the call returns `true` immediately; absent interference the predicate
at the end of the wait is its value at entry, so the sequential model
returns `wakePredicate`, for every timeout. -/
def SharedBuffer.waitForData (b : SharedBuffer) (_timeout_ms : Nat) : Bool :=
  b.wakePredicate

/-- `SharedBuffer::isShutdown`. -/
def SharedBuffer.isShutdown (b : SharedBuffer) : Bool :=
  b.shutdown

/-- `SharedBuffer::getStats`: point-in-time snapshot `(writes, reads)`. -/
def SharedBuffer.getStats (b : SharedBuffer) : Nat × Nat :=
  (b.total_writes, b.total_reads)

/-- The freshly constructed buffer `SharedBuffer(max_size)`. -/
def mkBuffer (max_size : Nat) : SharedBuffer :=
  ⟨[], max_size, false, 0, 0⟩

/-- The history currently stored for key `s` (empty when the key is
unknown). -/
def histOf (b : SharedBuffer) (s : String) : List PriceData :=
  (lookupHistory b.price_history s).getD []

/-- A sequence of `push` calls. -/
def pushAll (b : SharedBuffer) (ds : List PriceData) : SharedBuffer :=
  ds.foldl SharedBuffer.push b

/-- The effect of one `push` on a single key's history: append at the
tail, then drop the head if the capacity is exceeded. -/
def fifoStep (cap : Nat) (h : List PriceData) (d : PriceData) : List PriceData :=
  if (h ++ [d]).length > cap then (h ++ [d]).tail else h ++ [d]

/-- The `cap` most recent elements of a list, oldest-first. -/
def lastWindow (cap : Nat) (l : List PriceData) : List PriceData :=
  l.drop (l.length - cap)

theorem lookupHistory_appendEntry_self (m : List (String × List PriceData))
    (s : String) (d : PriceData) :
    lookupHistory (appendEntry m s d) s =
      some ((lookupHistory m s).getD [] ++ [d]) := by
  induction m with
  | nil => simp [appendEntry, lookupHistory]
  | cons p rest ih =>
    obtain ⟨k, h⟩ := p
    by_cases hk : k = s
    · subst hk; simp [appendEntry, lookupHistory]
    · simp [appendEntry, lookupHistory, hk, ih]

theorem lookupHistory_appendEntry_ne (m : List (String × List PriceData))
    (s : String) (d : PriceData) (t : String) (hst : s ≠ t) :
    lookupHistory (appendEntry m s d) t = lookupHistory m t := by
  induction m with
  | nil => simp [appendEntry, lookupHistory, hst]
  | cons p rest ih =>
    obtain ⟨k, h⟩ := p
    by_cases hk : k = s
    · subst hk; simp [appendEntry, lookupHistory, hst]
    · simp [appendEntry, lookupHistory, hk, ih]

theorem lookupHistory_trimEntry_self (m : List (String × List PriceData))
    (s : String) (cap : Nat) :
    lookupHistory (trimEntry m s cap) s =
      (lookupHistory m s).map (fun h => if h.length > cap then h.tail else h) := by
  induction m with
  | nil => simp [trimEntry, lookupHistory]
  | cons p rest ih =>
    obtain ⟨k, h⟩ := p
    by_cases hk : k = s
    · subst hk; simp [trimEntry, lookupHistory]
    · simp [trimEntry, lookupHistory, hk, ih]

theorem lookupHistory_trimEntry_ne (m : List (String × List PriceData))
    (s : String) (cap : Nat) (t : String) (hst : s ≠ t) :
    lookupHistory (trimEntry m s cap) t = lookupHistory m t := by
  induction m with
  | nil => simp [trimEntry, lookupHistory]
  | cons p rest ih =>
    obtain ⟨k, h⟩ := p
    by_cases hk : k = s
    · subst hk; simp [trimEntry, lookupHistory, hst]
    · simp [trimEntry, lookupHistory, hk, ih]

theorem push_max (b : SharedBuffer) (d : PriceData) :
    (b.push d).max_history_size = b.max_history_size := rfl

theorem push_reads (b : SharedBuffer) (d : PriceData) :
    (b.push d).total_reads = b.total_reads := rfl

theorem push_writes (b : SharedBuffer) (d : PriceData) :
    (b.push d).total_writes = b.total_writes + 1 := rfl

theorem histOf_push_self (b : SharedBuffer) (d : PriceData) :
    histOf (b.push d) d.symbol = fifoStep b.max_history_size (histOf b d.symbol) d := by
  unfold histOf SharedBuffer.push SharedBuffer.appendRaw SharedBuffer.trimKey
    SharedBuffer.incWrites fifoStep
  simp only [lookupHistory_trimEntry_self, lookupHistory_appendEntry_self,
    Option.map_some, Option.getD_some]
  simp

theorem histOf_push_ne (b : SharedBuffer) (d : PriceData) (t : String)
    (h : d.symbol ≠ t) : histOf (b.push d) t = histOf b t := by
  unfold histOf SharedBuffer.push SharedBuffer.appendRaw SharedBuffer.trimKey
    SharedBuffer.incWrites
  simp only [lookupHistory_trimEntry_ne _ _ _ _ h, lookupHistory_appendEntry_ne _ _ _ _ h]

theorem fifoStep_lastWindow (cap : Nat) (l : List PriceData) (d : PriceData) :
    fifoStep cap (lastWindow cap l) d = lastWindow cap (l ++ [d]) := by
  unfold fifoStep lastWindow
  rcases Nat.lt_or_ge l.length cap with hlt | hge
  · have h1 : l.length - cap = 0 := Nat.sub_eq_zero_of_le (le_of_lt hlt)
    have h2 : (l ++ [d]).length - cap = 0 := by simp; omega
    have hcond : ¬ (List.drop (l.length - cap) l ++ [d]).length > cap := by
      simp [h1]; omega
    rw [if_neg hcond, h1, h2]
    simp
  · have hcond : (List.drop (l.length - cap) l ++ [d]).length > cap := by
      simp; omega
    rw [if_pos hcond]
    rw [← List.drop_append_of_le_length (by omega), List.tail_drop]
    congr 1
    simp
    omega

theorem foldl_fifoStep (cap : Nat) (l ds : List PriceData) :
    ds.foldl (fifoStep cap) (lastWindow cap l) = lastWindow cap (l ++ ds) := by
  induction ds generalizing l with
  | nil => simp
  | cons d ds ih =>
    rw [List.foldl_cons, fifoStep_lastWindow, ih (l ++ [d])]
    simp

theorem histOf_pushAll_single (b : SharedBuffer) (k : String) (ds : List PriceData)
    (hk : ∀ d ∈ ds, d.symbol = k) :
    histOf (pushAll b ds) k = ds.foldl (fifoStep b.max_history_size) (histOf b k) := by
  induction ds generalizing b with
  | nil => rfl
  | cons d ds ih =>
    have hd : d.symbol = k := hk d (by simp)
    have hrest : ∀ x ∈ ds, x.symbol = k := fun x hx => hk x (by simp [hx])
    show histOf (pushAll (b.push d) ds) k = _
    rw [ih (b.push d) hrest, List.foldl_cons, push_max, ← hd, histOf_push_self]

theorem histOf_pushAll_mk (N : Nat) (k : String) (ds : List PriceData)
    (hk : ∀ d ∈ ds, d.symbol = k) :
    histOf (pushAll (mkBuffer N) ds) k = lastWindow N ds := by
  rw [histOf_pushAll_single _ _ _ hk]
  have h0 : histOf (mkBuffer N) k = lastWindow N [] := by
    simp [histOf, mkBuffer, lookupHistory, lastWindow]
  rw [h0]
  simpa using foldl_fifoStep N [] ds

theorem tailSlice_eq_drop (h : List PriceData) (count : Nat) :
    tailSlice h count = h.drop (h.length - count) := by
  unfold tailSlice
  by_cases hc : h.length > count
  · simp [hc]
  · have : h.length - count = 0 := by omega
    simp [hc, this]

theorem tailSlice_length (h : List PriceData) (count : Nat) :
    (tailSlice h count).length = min count h.length := by
  rw [tailSlice_eq_drop]
  simp
  omega

theorem getHistory_fst (b : SharedBuffer) (s : String) (count : Nat) :
    (b.getHistory s count).1 = tailSlice (histOf b s) count := by
  unfold SharedBuffer.getHistory histOf
  cases hl : lookupHistory b.price_history s <;> simp [tailSlice]

theorem getHistory_unknown (b : SharedBuffer) (s : String) (count : Nat)
    (h : lookupHistory b.price_history s = none) :
    b.getHistory s count = ([], b) := by
  unfold SharedBuffer.getHistory
  rw [h]

theorem lastWindow_length_le (cap : Nat) (l : List PriceData) :
    (lastWindow cap l).length ≤ cap := by
  unfold lastWindow
  simp
  omega

theorem getLatest_fst (b : SharedBuffer) (s : String) :
    (b.getLatest s).1 = (histOf b s).getLast? := by
  unfold SharedBuffer.getLatest histOf
  cases hl : lookupHistory b.price_history s with
  | none => simp
  | some h => cases hg : h.getLast? <;> simp [hg]

theorem getLatest_snd (b : SharedBuffer) (s : String) :
    (b.getLatest s).2 =
      if (histOf b s).getLast?.isSome then
        { b with total_reads := b.total_reads + 1 }
      else b := by
  unfold SharedBuffer.getLatest histOf
  cases hl : lookupHistory b.price_history s with
  | none => simp
  | some h => cases hg : h.getLast? <;> simp [hg]

theorem getHistory_snd (b : SharedBuffer) (s : String) (count : Nat) :
    (b.getHistory s count).2 =
      if (lookupHistory b.price_history s).isSome then
        { b with total_reads := b.total_reads + 1 }
      else b := by
  unfold SharedBuffer.getHistory
  cases hl : lookupHistory b.price_history s <;> simp

theorem fifoStep_getLast (cap : Nat) (hcap : 1 ≤ cap) (h : List PriceData)
    (d : PriceData) : (fifoStep cap h d).getLast? = some d := by
  unfold fifoStep
  by_cases hc : (h ++ [d]).length > cap
  · rw [if_pos hc]
    cases h with
    | nil => simp at hc; omega
    | cons a t => simp
  · rw [if_neg hc]
    simp

/-! ### Traces of buffer operations

One element per public call on the `SharedBuffer`; `stepOp` is the
state transformation each call performs (the value a read returns is
recovered from the pre-state via `getLatest`/`getHistory`). -/

/-- A public operation on the shared buffer. -/
inductive BufOp where
  | pushOp : PriceData → BufOp
  | latestOp : String → BufOp
  | historyOp : String → Nat → BufOp
  | symbolsOp : BufOp
  | waitOp : Nat → BufOp
  | shutdownSig : BufOp
deriving DecidableEq, Repr

/-- The state after one public call. -/
def stepOp (b : SharedBuffer) : BufOp → SharedBuffer
  | .pushOp d => b.push d
  | .latestOp s => (b.getLatest s).2
  | .historyOp s c => (b.getHistory s c).2
  | .symbolsOp => b
  | .waitOp _ => b
  | .shutdownSig => b.shutdownNow

/-- The state after a sequence of public calls. -/
def runOps (b : SharedBuffer) (ops : List BufOp) : SharedBuffer :=
  ops.foldl stepOp b

/-- Number of `push` calls in a trace. -/
def writeCount : List BufOp → Nat
  | [] => 0
  | .pushOp _ :: rest => writeCount rest + 1
  | .latestOp _ :: rest => writeCount rest
  | .historyOp _ _ :: rest => writeCount rest
  | .symbolsOp :: rest => writeCount rest
  | .waitOp _ :: rest => writeCount rest
  | .shutdownSig :: rest => writeCount rest

/-- How much one call adds to `total_reads_`: one for a `getLatest` that
returns found, one for a `getHistory` on an existing key, zero
otherwise. -/
def readInc (b : SharedBuffer) : BufOp → Nat
  | .latestOp s => if ((b.getLatest s).1).isSome then 1 else 0
  | .historyOp s _ => if (lookupHistory b.price_history s).isSome then 1 else 0
  | _ => 0

/-- Number of successful reads in a trace started at `b`. -/
def readCount (b : SharedBuffer) : List BufOp → Nat
  | [] => 0
  | op :: rest => readInc b op + readCount (stepOp b op) rest

theorem stepOp_writes (b : SharedBuffer) (op : BufOp) :
    (stepOp b op).total_writes =
      b.total_writes + (match op with | .pushOp _ => 1 | _ => 0) := by
  cases op with
  | pushOp d => rfl
  | latestOp s =>
    show (b.getLatest s).2.total_writes = b.total_writes
    rw [getLatest_snd]
    by_cases hc : (histOf b s).getLast?.isSome <;> simp [hc]
  | historyOp s c =>
    show (b.getHistory s c).2.total_writes = b.total_writes
    rw [getHistory_snd]
    by_cases hc : (lookupHistory b.price_history s).isSome <;> simp [hc]
  | symbolsOp => rfl
  | waitOp t => rfl
  | shutdownSig => rfl

theorem stepOp_reads (b : SharedBuffer) (op : BufOp) :
    (stepOp b op).total_reads = b.total_reads + readInc b op := by
  cases op with
  | pushOp d => rfl
  | latestOp s =>
    show (b.getLatest s).2.total_reads = b.total_reads + _
    rw [getLatest_snd]
    have : ((b.getLatest s).1).isSome = (histOf b s).getLast?.isSome := by
      rw [getLatest_fst]
    by_cases hc : (histOf b s).getLast?.isSome <;> simp [readInc, hc, this]
  | historyOp s c =>
    show (b.getHistory s c).2.total_reads = b.total_reads + _
    rw [getHistory_snd]
    by_cases hc : (lookupHistory b.price_history s).isSome <;> simp [readInc, hc]
  | symbolsOp => simp [readInc, stepOp]
  | waitOp t => simp [readInc, stepOp]
  | shutdownSig => simp [readInc, stepOp, SharedBuffer.shutdownNow]

theorem runOps_writes (ops : List BufOp) (b : SharedBuffer) :
    (runOps b ops).total_writes = b.total_writes + writeCount ops := by
  induction ops generalizing b with
  | nil => simp [runOps, writeCount]
  | cons op rest ih =>
    show (runOps (stepOp b op) rest).total_writes = _
    rw [ih, stepOp_writes]
    cases op <;> (simp [writeCount]; try omega)

theorem runOps_reads (ops : List BufOp) (b : SharedBuffer) :
    (runOps b ops).total_reads = b.total_reads + readCount b ops := by
  induction ops generalizing b with
  | nil => simp [runOps, readCount]
  | cons op rest ih =>
    show (runOps (stepOp b op) rest).total_reads = _
    rw [ih, stepOp_reads, readCount]
    omega

theorem stepOp_writes_mono (b : SharedBuffer) (op : BufOp) :
    b.total_writes ≤ (stepOp b op).total_writes := by
  rw [stepOp_writes]
  omega

theorem runOps_writes_mono (b : SharedBuffer) (ops : List BufOp) :
    b.total_writes ≤ (runOps b ops).total_writes := by
  rw [runOps_writes]
  omega

theorem stepOp_shutdown_mono (b : SharedBuffer) (op : BufOp)
    (h : b.shutdown = true) : (stepOp b op).shutdown = true := by
  cases op with
  | pushOp d => exact h
  | latestOp s =>
    show (b.getLatest s).2.shutdown = true
    rw [getLatest_snd]
    by_cases hc : (histOf b s).getLast?.isSome <;> simp [hc, h]
  | historyOp s c =>
    show (b.getHistory s c).2.shutdown = true
    rw [getHistory_snd]
    by_cases hc : (lookupHistory b.price_history s).isSome <;> simp [hc, h]
  | symbolsOp => exact h
  | waitOp t => exact h
  | shutdownSig => rfl

theorem runOps_shutdown_mono (b : SharedBuffer) (ops : List BufOp)
    (h : b.shutdown = true) : (runOps b ops).shutdown = true := by
  induction ops generalizing b with
  | nil => exact h
  | cons op rest ih =>
    show (runOps (stepOp b op) rest).shutdown = true
    exact ih _ (stepOp_shutdown_mono b op h)

theorem lookupHistory_isSome_iff (m : List (String × List PriceData))
    (s : String) : (lookupHistory m s).isSome ↔ s ∈ m.map Prod.fst := by
  induction m with
  | nil => simp [lookupHistory]
  | cons p rest ih =>
    obtain ⟨k, h⟩ := p
    by_cases hk : k = s
    · subst hk; simp [lookupHistory]
    · have h1 : lookupHistory ((k, h) :: rest) s = lookupHistory rest s := by
        simp [lookupHistory, hk]
      rw [h1, ih]
      simp only [List.map_cons, List.mem_cons]
      constructor
      · exact fun hm => Or.inr hm
      · rintro (h2 | h2)
        · exact absurd h2.symm hk
        · exact h2

theorem keys_appendEntry (m : List (String × List PriceData)) (s : String)
    (d : PriceData) :
    (appendEntry m s d).map Prod.fst =
      if (lookupHistory m s).isSome then m.map Prod.fst
      else m.map Prod.fst ++ [s] := by
  induction m with
  | nil => simp [appendEntry, lookupHistory]
  | cons p rest ih =>
    obtain ⟨k, h⟩ := p
    by_cases hk : k = s
    · subst hk; simp [appendEntry, lookupHistory]
    · by_cases hl : (lookupHistory rest s).isSome
      · simp [appendEntry, lookupHistory, hk, ih, hl]
      · simp [appendEntry, lookupHistory, hk, ih, hl]

theorem keys_trimEntry (m : List (String × List PriceData)) (s : String)
    (cap : Nat) : (trimEntry m s cap).map Prod.fst = m.map Prod.fst := by
  induction m with
  | nil => simp [trimEntry]
  | cons p rest ih =>
    obtain ⟨k, h⟩ := p
    by_cases hk : k = s
    · subst hk; simp [trimEntry]
    · simp [trimEntry, hk, ih]

theorem lookupHistory_push_self (b : SharedBuffer) (d : PriceData) :
    lookupHistory (b.push d).price_history d.symbol =
      some (fifoStep b.max_history_size (histOf b d.symbol) d) := by
  unfold SharedBuffer.push SharedBuffer.appendRaw SharedBuffer.trimKey
    SharedBuffer.incWrites fifoStep histOf
  simp only [lookupHistory_trimEntry_self, lookupHistory_appendEntry_self]
  rfl

theorem lookupHistory_push_ne (b : SharedBuffer) (d : PriceData) (t : String)
    (h : d.symbol ≠ t) :
    lookupHistory (b.push d).price_history t = lookupHistory b.price_history t := by
  unfold SharedBuffer.push SharedBuffer.appendRaw SharedBuffer.trimKey
    SharedBuffer.incWrites
  simp only [lookupHistory_trimEntry_ne _ _ _ _ h, lookupHistory_appendEntry_ne _ _ _ _ h]

/-- The reachability invariant behind C10: key list without duplicates,
and no key maps to an empty history. -/
def GoodBuf (b : SharedBuffer) : Prop :=
  b.getSymbols.Nodup
  ∧ ∀ (s : String) (h : List PriceData),
      lookupHistory b.price_history s = some h → h ≠ []

theorem fifoStep_ne_nil (cap : Nat) (hcap : 1 ≤ cap) (h : List PriceData)
    (d : PriceData) : fifoStep cap h d ≠ [] := by
  intro hc
  have := fifoStep_getLast cap hcap h d
  rw [hc] at this
  simp at this

theorem keys_push (b : SharedBuffer) (d : PriceData) :
    (b.push d).getSymbols =
      if (lookupHistory b.price_history d.symbol).isSome then b.getSymbols
      else b.getSymbols ++ [d.symbol] := by
  unfold SharedBuffer.getSymbols SharedBuffer.push SharedBuffer.appendRaw
    SharedBuffer.trimKey SharedBuffer.incWrites
  simp only [keys_trimEntry, keys_appendEntry]

theorem push_GoodBuf (b : SharedBuffer) (d : PriceData)
    (hcap : 1 ≤ b.max_history_size) (hg : GoodBuf b) : GoodBuf (b.push d) := by
  obtain ⟨hnd, hne⟩ := hg
  constructor
  · rw [keys_push]
    by_cases hl : (lookupHistory b.price_history d.symbol).isSome
    · rw [if_pos hl]
      exact hnd
    · have hmem : d.symbol ∉ b.getSymbols := by
        show ¬ d.symbol ∈ b.price_history.map Prod.fst
        rw [← lookupHistory_isSome_iff]
        simpa using hl
      rw [if_neg hl]
      simp [List.nodup_append, hnd, hmem]
  · intro s h hs
    by_cases hk : d.symbol = s
    · subst hk
      rw [lookupHistory_push_self] at hs
      cases hs
      exact fifoStep_ne_nil _ hcap _ _
    · rw [lookupHistory_push_ne _ _ _ hk] at hs
      exact hne s h hs

theorem getLatest_snd_ph (b : SharedBuffer) (s : String) :
    (b.getLatest s).2.price_history = b.price_history := by
  rw [getLatest_snd]
  by_cases hc : (histOf b s).getLast?.isSome <;> simp [hc]

theorem getHistory_snd_ph (b : SharedBuffer) (s : String) (c : Nat) :
    (b.getHistory s c).2.price_history = b.price_history := by
  rw [getHistory_snd]
  by_cases hc : (lookupHistory b.price_history s).isSome <;> simp [hc]

theorem stepOp_ph (b : SharedBuffer) (op : BufOp) :
    (stepOp b op).price_history = b.price_history
    ∨ ∃ d, op = BufOp.pushOp d := by
  cases op with
  | pushOp d => exact Or.inr ⟨d, rfl⟩
  | latestOp s => exact Or.inl (getLatest_snd_ph b s)
  | historyOp s c => exact Or.inl (getHistory_snd_ph b s c)
  | symbolsOp => exact Or.inl rfl
  | waitOp t => exact Or.inl rfl
  | shutdownSig => exact Or.inl rfl

theorem stepOp_max (b : SharedBuffer) (op : BufOp) :
    (stepOp b op).max_history_size = b.max_history_size := by
  cases op with
  | pushOp d => rfl
  | latestOp s =>
    show (b.getLatest s).2.max_history_size = _
    rw [getLatest_snd]
    by_cases hc : (histOf b s).getLast?.isSome <;> simp [hc]
  | historyOp s c =>
    show (b.getHistory s c).2.max_history_size = _
    rw [getHistory_snd]
    by_cases hc : (lookupHistory b.price_history s).isSome <;> simp [hc]
  | symbolsOp => rfl
  | waitOp t => rfl
  | shutdownSig => rfl

theorem stepOp_GoodBuf (b : SharedBuffer) (op : BufOp)
    (hcap : 1 ≤ b.max_history_size) (hg : GoodBuf b) : GoodBuf (stepOp b op) := by
  rcases stepOp_ph b op with hph | ⟨d, rfl⟩
  · constructor
    · show ((stepOp b op).price_history.map Prod.fst).Nodup
      rw [hph]
      exact hg.1
    · intro s h hs
      rw [hph] at hs
      exact hg.2 s h hs
  · exact push_GoodBuf b d hcap hg

theorem runOps_GoodBuf (ops : List BufOp) (b : SharedBuffer)
    (hcap : 1 ≤ b.max_history_size) (hg : GoodBuf b) : GoodBuf (runOps b ops) := by
  induction ops generalizing b with
  | nil => exact hg
  | cons op rest ih =>
    show GoodBuf (runOps (stepOp b op) rest)
    exact ih _ (by rw [stepOp_max]; exact hcap) (stepOp_GoodBuf b op hcap hg)

theorem getLatest_isSome_iff (b : SharedBuffer) (hg : GoodBuf b) (s : String) :
    ((b.getLatest s).1).isSome = true ↔ s ∈ b.getSymbols := by
  rw [getLatest_fst]
  have hkeys : (s ∈ b.getSymbols) ↔ ((lookupHistory b.price_history s).isSome = true) := by
    show (s ∈ b.price_history.map Prod.fst) ↔ _
    exact ⟨fun h => by rw [lookupHistory_isSome_iff]; exact h,
           fun h => (lookupHistory_isSome_iff _ _).mp h⟩
  rw [hkeys]
  unfold histOf
  cases hl : lookupHistory b.price_history s with
  | none => simp
  | some h =>
    have hne : h ≠ [] := hg.2 s h hl
    simp only [Option.getD_some, Option.isSome_some, iff_true]
    cases hg2 : h.getLast? with
    | none => exact absurd (List.getLast?_eq_none_iff.mp hg2) hne
    | some d => simp

/-- The keys pushed in a trace, in order of first push not collapsed. -/
def pushedKeys : List BufOp → List String
  | [] => []
  | .pushOp d :: rest => d.symbol :: pushedKeys rest
  | .latestOp _ :: rest => pushedKeys rest
  | .historyOp _ _ :: rest => pushedKeys rest
  | .symbolsOp :: rest => pushedKeys rest
  | .waitOp _ :: rest => pushedKeys rest
  | .shutdownSig :: rest => pushedKeys rest

theorem mem_getSymbols_push (b : SharedBuffer) (d : PriceData) (t : String) :
    t ∈ (b.push d).getSymbols ↔ t = d.symbol ∨ t ∈ b.getSymbols := by
  rw [keys_push]
  by_cases hl : (lookupHistory b.price_history d.symbol).isSome
  · rw [if_pos hl]
    constructor
    · exact Or.inr
    · rintro (rfl | h2)
      · exact (lookupHistory_isSome_iff _ _).mp hl
      · exact h2
  · rw [if_neg hl]
    simp only [List.mem_append, List.mem_singleton]
    tauto

theorem mem_symbols_runOps (ops : List BufOp) (b : SharedBuffer) (s : String) :
    s ∈ (runOps b ops).getSymbols ↔ s ∈ b.getSymbols ∨ s ∈ pushedKeys ops := by
  induction ops generalizing b with
  | nil => simp [runOps, pushedKeys]
  | cons op rest ih =>
    show s ∈ (runOps (stepOp b op) rest).getSymbols ↔ _
    rw [ih]
    rcases hph : op with d | t | ⟨t, c⟩ | _ | t | _
    all_goals simp only [pushedKeys]
    · rw [show stepOp b (BufOp.pushOp d) = b.push d from rfl]
      rw [mem_getSymbols_push b d s]
      simp only [List.mem_cons]
      tauto
    · have h1 : (stepOp b (BufOp.latestOp t)).getSymbols = b.getSymbols := by
        show ((b.getLatest t).2.price_history).map Prod.fst = b.price_history.map Prod.fst
        rw [getLatest_snd_ph]
      rw [h1]
    · have h1 : (stepOp b (BufOp.historyOp t c)).getSymbols = b.getSymbols := by
        show ((b.getHistory t c).2.price_history).map Prod.fst = b.price_history.map Prod.fst
        rw [getHistory_snd_ph]
      rw [h1]
    · rfl
    · rfl
    · rfl

/-! ### Claims about the shared buffer -/

/-- C1: for every capacity `N ≥ 1` and every sequence of pushes to one
key starting from a fresh buffer, the stored history never exceeds `N`
elements; with `M > N` pushes, `getHistory(key, N)` returns exactly the
last `N` pushed values in push order (oldest-first); for any `count`,
`getHistory` returns the `min(count, size)` most recent observations
oldest-first; and an unknown key yields the empty sequence. -/
theorem claim1_bounded_fifo_window :
    ∀ N : Nat, 1 ≤ N → ∀ (k : String) (ds : List PriceData),
      (∀ d ∈ ds, d.symbol = k) →
      (histOf (pushAll (mkBuffer N) ds) k).length ≤ N
      ∧ (ds.length > N →
          ((pushAll (mkBuffer N) ds).getHistory k N).1 = ds.drop (ds.length - N))
      ∧ (∀ count : Nat,
          ((pushAll (mkBuffer N) ds).getHistory k count).1 =
            (histOf (pushAll (mkBuffer N) ds) k).drop
              ((histOf (pushAll (mkBuffer N) ds) k).length - count)
          ∧ ((pushAll (mkBuffer N) ds).getHistory k count).1.length =
              min count (histOf (pushAll (mkBuffer N) ds) k).length)
      ∧ (∀ (b : SharedBuffer) (s : String) (count : Nat),
          lookupHistory b.price_history s = none →
          (b.getHistory s count).1 = []) := by
  intro N hN k ds hk
  have hh := histOf_pushAll_mk N k ds hk
  refine ⟨?_, ?_, ?_, ?_⟩
  · rw [hh]
    exact lastWindow_length_le N ds
  · intro hM
    rw [getHistory_fst, hh, tailSlice_eq_drop]
    have hlen : (lastWindow N ds).length = N := by
      unfold lastWindow; simp; omega
    rw [hlen]
    simp [lastWindow]
  · intro count
    exact ⟨by rw [getHistory_fst, tailSlice_eq_drop],
           by rw [getHistory_fst, tailSlice_length]⟩
  · intro b s count h
    rw [getHistory_unknown b s count h]

/-- Witness for C1: capacity 2, three pushes of 10, 11, 12 to key `X`:
the history is bounded by 2 and the window of size 2 is `[11, 12]`. -/
theorem claim1_witness :
    (histOf (pushAll (mkBuffer 2)
        [⟨"X", 10, 0, 0⟩, ⟨"X", 11, 1, 1⟩, ⟨"X", 12, 1, 2⟩]) "X").length ≤ 2
    ∧ ((pushAll (mkBuffer 2)
        [⟨"X", 10, 0, 0⟩, ⟨"X", 11, 1, 1⟩, ⟨"X", 12, 1, 2⟩]).getHistory "X" 2).1
        = [⟨"X", 11, 1, 1⟩, ⟨"X", 12, 1, 2⟩] := by
  have h := claim1_bounded_fifo_window 2 (by decide) "X"
    [⟨"X", 10, 0, 0⟩, ⟨"X", 11, 1, 1⟩, ⟨"X", 12, 1, 2⟩] (by decide)
  refine ⟨h.1, ?_⟩
  have h2 := h.2.1 (by decide)
  simpa using h2

/-- C2: the wake predicate of `waitForData` is exactly
`shutdown || total_writes > 0`; `total_writes` never decreases under any
operation; it is positive immediately after any push; and once positive,
every later `waitForData` call — after any further operation sequence —
returns `true` regardless of the timeout argument. -/
theorem claim2_wait_degenerates :
    (∀ b : SharedBuffer,
        b.wakePredicate = (b.shutdown || decide (0 < b.total_writes)))
    ∧ (∀ (b : SharedBuffer) (op : BufOp),
        b.total_writes ≤ (stepOp b op).total_writes)
    ∧ (∀ (b : SharedBuffer) (d : PriceData), 0 < (b.push d).total_writes)
    ∧ (∀ (b : SharedBuffer) (t : Nat),
        0 < b.total_writes → b.waitForData t = true)
    ∧ (∀ (b : SharedBuffer) (ops : List BufOp) (t : Nat),
        0 < b.total_writes → (runOps b ops).waitForData t = true) := by
  refine ⟨fun b => rfl, stepOp_writes_mono, ?_, ?_, ?_⟩
  · intro b d
    rw [push_writes]
    omega
  · intro b t h
    unfold SharedBuffer.waitForData SharedBuffer.wakePredicate
    simp [h]
  · intro b ops t h
    have := runOps_writes_mono b ops
    unfold SharedBuffer.waitForData SharedBuffer.wakePredicate
    have hw : 0 < (runOps b ops).total_writes := by omega
    simp [hw]

/-- Witness for C2: after one push to a fresh buffer, `waitForData`
returns `true` at once, and still does after a further read call. -/
theorem claim2_witness :
    ((mkBuffer 3).push ⟨"A", 1, 0, 0⟩).waitForData 1000 = true
    ∧ (runOps ((mkBuffer 3).push ⟨"A", 1, 0, 0⟩)
        [BufOp.latestOp "A"]).waitForData 0 = true := by
  constructor
  · exact claim2_wait_degenerates.2.2.2.1 ((mkBuffer 3).push ⟨"A", 1, 0, 0⟩)
      1000 (by decide)
  · exact claim2_wait_degenerates.2.2.2.2 ((mkBuffer 3).push ⟨"A", 1, 0, 0⟩)
      [BufOp.latestOp "A"] 0 (by decide)

/-- C3: `shutdownNow` is idempotent, sets the shutdown flag, makes every
subsequent `waitForData` call (after any further operation sequence)
return `true` for every timeout, and modifies no other field of the
buffer (histories, capacity, counters). -/
theorem claim3_shutdown_idempotent :
    ∀ b : SharedBuffer,
      b.shutdownNow.shutdownNow = b.shutdownNow
      ∧ b.shutdownNow.shutdown = true
      ∧ (∀ t : Nat, b.shutdownNow.waitForData t = true)
      ∧ (∀ (ops : List BufOp) (t : Nat),
          (runOps b.shutdownNow ops).waitForData t = true)
      ∧ b.shutdownNow.price_history = b.price_history
      ∧ b.shutdownNow.max_history_size = b.max_history_size
      ∧ b.shutdownNow.total_writes = b.total_writes
      ∧ b.shutdownNow.total_reads = b.total_reads := by
  intro b
  refine ⟨rfl, rfl, fun t => ?_, fun ops t => ?_, rfl, rfl, rfl, rfl⟩
  · unfold SharedBuffer.waitForData SharedBuffer.wakePredicate
    simp [SharedBuffer.shutdownNow]
  · have hs : (runOps b.shutdownNow ops).shutdown = true :=
      runOps_shutdown_mono _ ops rfl
    unfold SharedBuffer.waitForData SharedBuffer.wakePredicate
    simp [hs]

/-- C4: `getLatest` returns not-found exactly when the key is unknown or
its history is empty, in which case the buffer is left unchanged;
otherwise it returns the tail (most recent) element of the history and
bumps only `total_reads`; for capacity at least 1, the observation just
pushed is the one `getLatest` returns.  Absence is an `Option`, never an
error. -/
theorem claim4_latest_found_semantics :
    ∀ (b : SharedBuffer) (s : String),
      ((b.getLatest s).1 = none ↔ histOf b s = [])
      ∧ ((b.getLatest s).1 = none → (b.getLatest s).2 = b)
      ∧ (histOf b s ≠ [] →
          (b.getLatest s).1 = (histOf b s).getLast?
          ∧ (b.getLatest s).2 = { b with total_reads := b.total_reads + 1 })
      ∧ (∀ d : PriceData, 1 ≤ b.max_history_size →
          ((b.push d).getLatest d.symbol).1 = some d) := by
  intro b s
  refine ⟨?_, ?_, ?_, ?_⟩
  · rw [getLatest_fst]
    exact List.getLast?_eq_none_iff
  · intro h
    rw [getLatest_fst] at h
    rw [getLatest_snd, h]
    simp
  · intro h
    have hsome : (histOf b s).getLast?.isSome := by
      rcases List.exists_mem_of_ne_nil _ h with ⟨x, _⟩
      cases hg : (histOf b s).getLast? with
      | none => exact absurd (List.getLast?_eq_none_iff.mp hg) h
      | some y => simp
    exact ⟨getLatest_fst b s, by rw [getLatest_snd, if_pos hsome]⟩
  · intro d hcap
    rw [getLatest_fst, histOf_push_self]
    exact fifoStep_getLast b.max_history_size hcap _ d

/-- Witness for C4: on a fresh buffer of capacity 2, key `X` is
not-found and the state is unchanged; after pushing 10 then 11, the
latest is 11. -/
theorem claim4_witness :
    ((mkBuffer 2).getLatest "X").2 = mkBuffer 2
    ∧ ((pushAll (mkBuffer 2) [⟨"X", 10, 0, 0⟩, ⟨"X", 11, 1, 1⟩]).getLatest
        "X").1 = some ⟨"X", 11, 1, 1⟩ := by
  constructor
  · exact (claim4_latest_found_semantics (mkBuffer 2) "X").2.1 (by decide)
  · exact (claim4_latest_found_semantics
      (pushAll (mkBuffer 2) [⟨"X", 10, 0, 0⟩]) "X").2.2.2 ⟨"X", 11, 1, 1⟩
      (by decide)

/-- C5: after any operation trace from a fresh buffer, `getStats`
reports exactly the number of `push` calls as writes and the number of
successful reads (`getLatest` that found data, `getHistory` on an
existing key) as reads; reads on unknown keys leave the buffer — hence
the read counter — unchanged, and no other operation touches either
counter. -/
theorem claim5_stats_exact :
    (∀ (N : Nat) (ops : List BufOp),
        (runOps (mkBuffer N) ops).getStats =
          (writeCount ops, readCount (mkBuffer N) ops))
    ∧ (∀ (b : SharedBuffer) (s : String) (c : Nat),
        lookupHistory b.price_history s = none →
        (b.getLatest s).2 = b ∧ (b.getHistory s c).2 = b)
    ∧ (∀ (b : SharedBuffer) (d : PriceData),
        (b.push d).total_reads = b.total_reads)
    ∧ (∀ (b : SharedBuffer) (s : String),
        (b.getLatest s).2.total_writes = b.total_writes)
    ∧ (∀ (b : SharedBuffer) (s : String) (c : Nat),
        (b.getHistory s c).2.total_writes = b.total_writes)
    ∧ (∀ b : SharedBuffer,
        b.shutdownNow.total_writes = b.total_writes
        ∧ b.shutdownNow.total_reads = b.total_reads
        ∧ stepOp b BufOp.symbolsOp = b
        ∧ ∀ t : Nat, stepOp b (BufOp.waitOp t) = b) := by
  refine ⟨?_, ?_, push_reads, ?_, ?_, fun b => ⟨rfl, rfl, rfl, fun t => rfl⟩⟩
  · intro N ops
    unfold SharedBuffer.getStats
    rw [runOps_writes, runOps_reads]
    simp [mkBuffer]
  · intro b s c h
    constructor
    · rw [getLatest_snd]
      have : histOf b s = [] := by unfold histOf; rw [h]; rfl
      simp [this]
    · rw [getHistory_snd, h]
      simp
  · intro b s
    have := stepOp_writes b (BufOp.latestOp s)
    simpa using this
  · intro b s c
    have := stepOp_writes b (BufOp.historyOp s c)
    simpa using this

/-- Witness for C5: a concrete trace — push to `A`, read `A`
successfully, read unknown key `B` — yields stats `(1, 1)`, and a read
of an unknown key leaves the fresh buffer unchanged. -/
theorem claim5_witness :
    (runOps (mkBuffer 5)
        [BufOp.pushOp ⟨"A", 7, 0, 0⟩, BufOp.latestOp "A",
         BufOp.latestOp "B"]).getStats = (1, 1)
    ∧ ((mkBuffer 5).getLatest "B").2 = mkBuffer 5 := by
  constructor
  · have h := claim5_stats_exact.1 5
      [BufOp.pushOp ⟨"A", 7, 0, 0⟩, BufOp.latestOp "A", BufOp.latestOp "B"]
    rw [h]
    rfl
  · exact ((claim5_stats_exact.2.1 (mkBuffer 5) "B" 0) (by decide)).1

/-- C10: for capacity at least 1 and any operation trace from a fresh
buffer, every key present in the map has a non-empty history, the
symbol list has no duplicate (each pushed key listed exactly once),
membership in `getSymbols` is exactly the set of pushed keys, and
`getLatest` finds a key exactly when it appears in `getSymbols`. -/
theorem claim10_symbols_latest_agree :
    ∀ N : Nat, 1 ≤ N → ∀ ops : List BufOp,
      ((runOps (mkBuffer N) ops).getSymbols).Nodup
      ∧ (∀ (s : String) (h : List PriceData),
          lookupHistory (runOps (mkBuffer N) ops).price_history s = some h →
          h ≠ [])
      ∧ (∀ s : String,
          (((runOps (mkBuffer N) ops).getLatest s).1).isSome = true
            ↔ s ∈ (runOps (mkBuffer N) ops).getSymbols)
      ∧ (∀ s : String,
          s ∈ (runOps (mkBuffer N) ops).getSymbols ↔ s ∈ pushedKeys ops) := by
  intro N hN ops
  have hg0 : GoodBuf (mkBuffer N) := by
    constructor
    · show (List.map Prod.fst ([] : List (String × List PriceData))).Nodup
      simp
    · intro s h hs
      simp [mkBuffer, lookupHistory] at hs
  have hg := runOps_GoodBuf ops (mkBuffer N) hN hg0
  refine ⟨hg.1, hg.2, fun s => getLatest_isSome_iff _ hg s, fun s => ?_⟩
  rw [mem_symbols_runOps]
  have : s ∉ (mkBuffer N).getSymbols := by
    show s ∉ List.map Prod.fst ([] : List (String × List PriceData))
    simp
  tauto

/-- Witness for C10: after pushing to `A` twice and `B` once with
capacity 1, the symbol list is duplicate-free, agrees with the pushed
keys, and `getLatest` finds exactly those keys. -/
theorem claim10_witness :
    ((runOps (mkBuffer 1)
        [BufOp.pushOp ⟨"A", 1, 0, 0⟩, BufOp.pushOp ⟨"B", 2, 0, 1⟩,
         BufOp.pushOp ⟨"A", 3, 2, 2⟩]).getSymbols).Nodup
    ∧ ((((runOps (mkBuffer 1)
        [BufOp.pushOp ⟨"A", 1, 0, 0⟩, BufOp.pushOp ⟨"B", 2, 0, 1⟩,
         BufOp.pushOp ⟨"A", 3, 2, 2⟩]).getLatest "A").1).isSome = true
        ↔ "A" ∈ (runOps (mkBuffer 1)
        [BufOp.pushOp ⟨"A", 1, 0, 0⟩, BufOp.pushOp ⟨"B", 2, 0, 1⟩,
         BufOp.pushOp ⟨"A", 3, 2, 2⟩]).getSymbols) := by
  have h := claim10_symbols_latest_agree 1 (by decide)
    [BufOp.pushOp ⟨"A", 1, 0, 0⟩, BufOp.pushOp ⟨"B", 2, 0, 1⟩,
     BufOp.pushOp ⟨"A", 3, 2, 2⟩]
  exact ⟨h.1, h.2.2.1 "A"⟩

/-! ### The SMA consumer (`SMACalculator::run`) -/

/-- `sma = sum / history.size()`. -/
def smaOf (prices : List ℚ) : ℚ :=
  prices.sum / prices.length

/-- `deviation = ((latest_price - sma) / sma) * 100.0`. -/
def deviationOf (latest sma : ℚ) : ℚ :=
  ((latest - sma) / sma) * 100

/-- One SMA computation of `SMACalculator::run` on a window read from
the buffer: skipped (`none`) when fewer than 2 samples, otherwise the
pair (sma, deviation of the newest value). -/
def smaOutput (history : List PriceData) : Option (ℚ × ℚ) :=
  if history.length < 2 then none
  else
    let prices := history.map (fun d => d.price)
    let sma := smaOf prices
    let latest := prices.getLast?.getD 0
    some (sma, deviationOf latest sma)

/-- C7: windows with fewer than 2 samples are skipped; otherwise the SMA
consumer yields the arithmetic mean of the window (characterized by
`length * mean = sum`) and the deviation `((newest - mean)/mean) * 100`;
on the window `[10, 20, 30]` this gives mean `20` and deviation `+50`. -/
theorem claim7_sma_mean_deviation :
    (∀ h : List PriceData, h.length < 2 → smaOutput h = none)
    ∧ (∀ h : List PriceData, 2 ≤ h.length →
        smaOutput h = some (smaOf (h.map (fun d => d.price)),
          deviationOf ((h.map (fun d => d.price)).getLast?.getD 0)
            (smaOf (h.map (fun d => d.price)))))
    ∧ (∀ prices : List ℚ, prices ≠ [] →
        (prices.length : ℚ) * smaOf prices = prices.sum)
    ∧ smaOutput [⟨"X", 10, 0, 0⟩, ⟨"X", 20, 10, 1⟩, ⟨"X", 30, 10, 2⟩]
        = some (20, 50) := by
  refine ⟨?_, ?_, ?_, ?_⟩
  · intro h hl
    simp [smaOutput, hl]
  · intro h hl
    have hnl : ¬ h.length < 2 := by omega
    simp [smaOutput, hnl]
  · intro ps hne
    have h0 : (ps.length : ℚ) ≠ 0 := by
      have := List.length_pos.mpr hne
      exact_mod_cast Nat.pos_iff_ne_zero.mp this
    unfold smaOf
    field_simp
  · norm_num [smaOutput, smaOf, deviationOf]

/-- Witness for C7: a one-sample window is skipped, and on values
`[10, 20, 30]` three times the mean is the sum `60`. -/
theorem claim7_witness :
    smaOutput [⟨"X", 10, 0, 0⟩] = none
    ∧ ((3 : ℚ) * smaOf [10, 20, 30] = 60) := by
  constructor
  · exact claim7_sma_mean_deviation.1 [⟨"X", 10, 0, 0⟩] (by decide)
  · have h := claim7_sma_mean_deviation.2.2.1 [(10 : ℚ), 20, 30] (by decide)
    norm_num at h
    exact h

/-! ### The producer (`PriceGenerator::run`) -/

/-- `current_prices_[i] += change; if (current_prices_[i] < 1.0)
current_prices_[i] = 1.0;` — the clamp applied to the new price. -/
def clampFloor (p : ℚ) : ℚ :=
  if p < 1 then 1 else p

/-- One symbol update in the producer loop: the new stored price and the
`PriceData` pushed to the buffer (change field carries the raw noise). -/
def updateSymbol (s : String) (prev noise : ℚ) (t : Nat) : ℚ × PriceData :=
  let np := clampFloor (prev + noise)
  (np, ⟨s, np, noise, t⟩)

/-- The externally visible actions of the producer loop: a `push` into
the shared buffer or a `recordGeneration` call on the metrics monitor. -/
inductive ProdEvent where
  | pushEv : PriceData → ProdEvent
  | recordEv : String → Nat → ProdEvent
deriving DecidableEq, Repr

/-- One iteration of `PriceGenerator::run`: for every tracked symbol,
update the price, push the observation, then record the generation. -/
def genIter : List (String × ℚ) → List ℚ → Nat →
    List (String × ℚ) × List ProdEvent
  | (s, p) :: rest, c :: cs, t =>
    let u := updateSymbol s p c t
    let r := genIter rest cs t
    ((s, u.1) :: r.1, ProdEvent.pushEv u.2 :: ProdEvent.recordEv s t :: r.2)
  | prevs, _, _ => (prevs, [])

/-- The running producer loop over successive iterations, one noise
vector per iteration. -/
def genRun : List (String × ℚ) → List (List ℚ) → Nat →
    List (String × ℚ) × List ProdEvent
  | prevs, [], _ => (prevs, [])
  | prevs, ns :: rest, t =>
    let r1 := genIter prevs ns t
    let r2 := genRun r1.1 rest (t + 1)
    (r2.1, r1.2 ++ r2.2)

theorem clampFloor_ge_one (p : ℚ) : 1 ≤ clampFloor p := by
  unfold clampFloor
  split
  · exact le_refl 1
  · linarith [not_lt.mp (by assumption : ¬ p < 1)]

theorem genIter_push_price (prevs : List (String × ℚ)) :
    ∀ (noises : List ℚ) (t : Nat) (d : PriceData),
      ProdEvent.pushEv d ∈ (genIter prevs noises t).2 → 1 ≤ d.price := by
  induction prevs with
  | nil =>
    intro noises t d h
    cases noises <;> simp [genIter] at h
  | cons sp rest ih =>
    intro noises t d h
    obtain ⟨s, p⟩ := sp
    cases noises with
    | nil => simp [genIter] at h
    | cons c cs =>
      simp only [genIter, List.mem_cons] at h
      rcases h with h | h | h
      · cases h
        exact clampFloor_ge_one _
      · cases h
      · exact ih cs t d h

/-- C8: each producer step stores and pushes `clampFloor (prev + noise)`
(the previous price plus the noise, clamped below at 1); an iteration
emits, per symbol, exactly one push followed by one record-generation
event; and every observation pushed during any multi-iteration run has
price at least 1, for every sequence of noise values. -/
theorem claim8_producer_clamp :
    (∀ p : ℚ, 1 ≤ clampFloor p)
    ∧ (∀ (s : String) (p c : ℚ) (t : Nat),
        (updateSymbol s p c t).1 = clampFloor (p + c)
        ∧ (updateSymbol s p c t).2 = ⟨s, clampFloor (p + c), c, t⟩)
    ∧ (∀ (prevs : List (String × ℚ)) (noises : List ℚ) (t : Nat),
        (genIter prevs noises t).2 =
          (prevs.zip noises).flatMap (fun pc =>
            [ProdEvent.pushEv (updateSymbol pc.1.1 pc.1.2 pc.2 t).2,
             ProdEvent.recordEv pc.1.1 t]))
    ∧ (∀ (prevs : List (String × ℚ)) (noiseSeq : List (List ℚ)) (t0 : Nat)
        (d : PriceData),
        ProdEvent.pushEv d ∈ (genRun prevs noiseSeq t0).2 → 1 ≤ d.price) := by
  refine ⟨clampFloor_ge_one, fun s p c t => ⟨rfl, rfl⟩, ?_, ?_⟩
  · intro prevs
    induction prevs with
    | nil => intro noises t; cases noises <;> rfl
    | cons sp rest ih =>
      intro noises t
      obtain ⟨s, p⟩ := sp
      cases noises with
      | nil => rfl
      | cons c cs => simp [genIter, List.zip_cons_cons, ih cs t]
  · intro prevs noiseSeq
    induction noiseSeq generalizing prevs with
    | nil => intro t0 d h; simp [genRun] at h
    | cons ns rest ih =>
      intro t0 d h
      simp only [genRun, List.mem_append] at h
      rcases h with h | h
      · exact genIter_push_price prevs ns t0 d h
      · exact ih _ t0.succ d h

/-- Witness for C8: one symbol starting at 100 hit by noise −200 is
clamped to price 1, which satisfies the floor. -/
theorem claim8_witness :
    ProdEvent.pushEv ⟨"AAPL", 1, -200, 0⟩ ∈
      (genRun [("AAPL", 100)] [[-200]] 0).2
    ∧ 1 ≤ (PriceData.mk "AAPL" 1 (-200) 0).price := by
  have hm : ProdEvent.pushEv ⟨"AAPL", 1, -200, 0⟩ ∈
      (genRun [("AAPL", 100)] [[-200]] 0).2 := by
    simp [genRun, genIter, updateSymbol, clampFloor]
    norm_num
  exact ⟨hm, claim8_producer_clamp.2.2.2 [("AAPL", 100)] [[-200]] 0 _ hm⟩

/-! ### The volatility consumer (`VolatilityCalculator::run`) -/

/-- `return_pct = (history[i].price - history[i-1].price) /
history[i-1].price` for `i = 1 .. size-1`. -/
def stepReturns (prices : List ℚ) : List ℚ :=
  (prices.zip prices.tail).map (fun pr => (pr.2 - pr.1) / pr.1)

/-- `mean_return = accumulate(returns) / returns.size()`. -/
def meanOf (xs : List ℚ) : ℚ :=
  xs.sum / xs.length

/-- `variance += (ret - mean) * (ret - mean)` over all returns, then
`variance /= returns.size()` — the population variance. -/
def varianceOf (xs : List ℚ) : ℚ :=
  (xs.map (fun r => (r - meanOf xs) * (r - meanOf xs))).sum / xs.length

/-- `annualized_volatility = sqrt(variance) * sqrt(252.0) * 100.0`. -/
noncomputable def annualizedVol (prices : List ℚ) : ℝ :=
  Real.sqrt ((varianceOf (stepReturns prices) : ℚ) : ℝ) * Real.sqrt 252 * 100

/-- The volatility tier labels printed by `VolatilityCalculator::run`. -/
inductive VolLevel where
  | LOW
  | MODERATE
  | HIGH
deriving DecidableEq, Repr

open Classical in
/-- The tier classification: `< 15` LOW, else `< 30` MODERATE, else
HIGH. -/
noncomputable def classifyVol (prices : List ℚ) : VolLevel :=
  if annualizedVol prices < 15 then VolLevel.LOW
  else if annualizedVol prices < 30 then VolLevel.MODERATE
  else VolLevel.HIGH

/-- One volatility computation of `VolatilityCalculator::run` on a
window read from the buffer: skipped (`none`) when fewer than 3
samples. -/
noncomputable def volOutput (history : List PriceData) :
    Option (ℝ × VolLevel) :=
  if history.length < 3 then none
  else some (annualizedVol (history.map (fun d => d.price)),
             classifyVol (history.map (fun d => d.price)))

theorem varianceOf_nonneg (xs : List ℚ) : 0 ≤ varianceOf xs := by
  unfold varianceOf
  apply div_nonneg
  · apply List.sum_nonneg
    intro x hx
    simp only [List.mem_map] at hx
    obtain ⟨r, _, rfl⟩ := hx
    exact mul_self_nonneg _
  · exact_mod_cast Nat.zero_le _

theorem annualizedVol_eq_sqrt (ps : List ℚ) :
    annualizedVol ps =
      Real.sqrt (((varianceOf (stepReturns ps) : ℚ) : ℝ) * 2520000) := by
  unfold annualizedVol
  have hv : (0 : ℝ) ≤ ((varianceOf (stepReturns ps) : ℚ) : ℝ) := by
    exact_mod_cast varianceOf_nonneg _
  rw [← Real.sqrt_mul hv 252]
  have h100 : (100 : ℝ) = Real.sqrt (100 ^ 2) :=
    (Real.sqrt_sq (by norm_num)).symm
  rw [h100, ← Real.sqrt_mul (by positivity)]
  congr 1
  ring

theorem annualizedVol_lt_of (ps : List ℚ) (c : ℚ) (hc : 0 < c)
    (h : varianceOf (stepReturns ps) * 2520000 < c * c) :
    annualizedVol ps < (c : ℝ) := by
  rw [annualizedVol_eq_sqrt, Real.sqrt_lt' (by exact_mod_cast hc), pow_two]
  exact_mod_cast h

theorem lt_annualizedVol_of (ps : List ℚ) (c : ℚ) (hc : 0 ≤ c)
    (h : c * c < varianceOf (stepReturns ps) * 2520000) :
    (c : ℝ) < annualizedVol ps := by
  rw [annualizedVol_eq_sqrt, Real.lt_sqrt (by exact_mod_cast hc), pow_two]
  exact_mod_cast h

theorem varianceOf_window :
    varianceOf (stepReturns [100, 101, 99, 100]) =
      891000301 / 4499100045000 := by
  norm_num [stepReturns, varianceOf, meanOf, List.zip_cons_cons]

/-- C6 counterexample: the annualized volatility of the window
`[100, 101, 99, 100]` is strictly below 30 percent, so it is not
"about 30–31%" and is not classified HIGH. -/
theorem claim6_counterexample :
    annualizedVol [100, 101, 99, 100] < 30
    ∧ ¬ (30 ≤ annualizedVol [100, 101, 99, 100]
          ∧ annualizedVol [100, 101, 99, 100] ≤ 31) := by
  have h := annualizedVol_lt_of [100, 101, 99, 100] 30 (by norm_num)
    (by rw [varianceOf_window]; norm_num)
  have h30 : annualizedVol [100, 101, 99, 100] < 30 := by exact_mod_cast h
  exact ⟨h30, fun hx => absurd hx.1 (not_le.mpr h30)⟩

/-- C6 (amended): windows shorter than 3 are skipped; the consumer
computes per-step returns, their population variance (characterized by
`length * variance = sum of squared deviations`), and classifies the
annualized volatility with thresholds 15 and 30; the window
`[100, 101, 99, 100]` yields an annualized volatility strictly between
22 and 23 percent, classified MODERATE. -/
theorem claim6_volatility :
    (∀ h : List PriceData, h.length < 3 → volOutput h = none)
    ∧ (∀ h : List PriceData, 3 ≤ h.length →
        volOutput h = some (annualizedVol (h.map (fun d => d.price)),
          classifyVol (h.map (fun d => d.price))))
    ∧ (∀ xs : List ℚ, xs ≠ [] →
        (xs.length : ℚ) * varianceOf xs =
          (xs.map (fun r => (r - meanOf xs) * (r - meanOf xs))).sum)
    ∧ (∀ ps : List ℚ,
        (classifyVol ps = VolLevel.LOW ↔ annualizedVol ps < 15)
        ∧ (classifyVol ps = VolLevel.MODERATE ↔
            15 ≤ annualizedVol ps ∧ annualizedVol ps < 30)
        ∧ (classifyVol ps = VolLevel.HIGH ↔ 30 ≤ annualizedVol ps))
    ∧ (22 < annualizedVol [100, 101, 99, 100]
        ∧ annualizedVol [100, 101, 99, 100] < 23
        ∧ classifyVol [100, 101, 99, 100] = VolLevel.MODERATE) := by
  refine ⟨?_, ?_, ?_, ?_, ?_⟩
  · intro h hl
    simp [volOutput, hl]
  · intro h hl
    have hnl : ¬ h.length < 3 := by omega
    simp [volOutput, hnl]
  · intro xs hne
    have h0 : (xs.length : ℚ) ≠ 0 := by
      have := List.length_pos.mpr hne
      exact_mod_cast Nat.pos_iff_ne_zero.mp this
    unfold varianceOf
    field_simp
  · intro ps
    by_cases h1 : annualizedVol ps < 15
    · have hc : classifyVol ps = VolLevel.LOW := by
        unfold classifyVol; rw [if_pos h1]
      rw [hc]
      refine ⟨⟨fun _ => h1, fun _ => rfl⟩, ?_, ?_⟩
      · exact ⟨fun hx => absurd hx (by decide),
               fun hx => absurd hx.1 (not_le.mpr h1)⟩
      · exact ⟨fun hx => absurd hx (by decide),
               fun hx => absurd hx (not_le.mpr (by linarith))⟩
    · by_cases h2 : annualizedVol ps < 30
      · have hc : classifyVol ps = VolLevel.MODERATE := by
          unfold classifyVol; rw [if_neg h1, if_pos h2]
        rw [hc]
        refine ⟨?_, ?_, ?_⟩
        · exact ⟨fun hx => absurd hx (by decide), fun hx => absurd hx h1⟩
        · exact ⟨fun _ => ⟨not_lt.mp h1, h2⟩, fun _ => rfl⟩
        · exact ⟨fun hx => absurd hx (by decide),
                 fun hx => absurd h2 (not_lt.mpr hx)⟩
      · have hc : classifyVol ps = VolLevel.HIGH := by
          unfold classifyVol; rw [if_neg h1, if_neg h2]
        rw [hc]
        refine ⟨?_, ?_, ?_⟩
        · exact ⟨fun hx => absurd hx (by decide), fun hx => absurd hx h1⟩
        · exact ⟨fun hx => absurd hx (by decide),
                 fun hx => absurd hx.2 h2⟩
        · exact ⟨fun _ => not_lt.mp h2, fun _ => rfl⟩
  · have h22 : (22 : ℝ) < annualizedVol [100, 101, 99, 100] := by
      have := lt_annualizedVol_of [100, 101, 99, 100] 22 (by norm_num)
        (by rw [varianceOf_window]; norm_num)
      exact_mod_cast this
    have h23 : annualizedVol [100, 101, 99, 100] < (23 : ℝ) := by
      have := annualizedVol_lt_of [100, 101, 99, 100] 23 (by norm_num)
        (by rw [varianceOf_window]; norm_num)
      exact_mod_cast this
    refine ⟨h22, h23, ?_⟩
    unfold classifyVol
    rw [if_neg (by linarith), if_pos (by linarith)]

/-- Witness for C6: a one-sample window is skipped by the volatility
consumer. -/
theorem claim6_witness : volOutput [⟨"X", 1, 0, 0⟩] = none :=
  claim6_volatility.1 [⟨"X", 1, 0, 0⟩] (by decide)

/-! ### Fine-grained interleavings (C9)

`SharedBuffer::push` executes three statements while holding the single
mutex (append, trim, count).  The writer is modelled statement by
statement with a program counter; a reader's `getHistory` holds the
same lock for its whole body, so a reader step is enabled only while
the writer is between pushes.  Every list a reader ever receives is the
window of the completed-push prefix at that instant, and is never
altered by later steps. -/

/-- Program counter of the writer inside `SharedBuffer::push`; the lock
is held in every phase except `idle`. -/
inductive WPhase where
  | idle : WPhase
  | locked : PriceData → WPhase
  | appended : PriceData → WPhase
  | trimmed : PriceData → WPhase
  | counted : PriceData → WPhase
deriving DecidableEq, Repr

/-- Whole-system state: shared buffer, writer phase, the writer's
remaining pushes, the completed pushes (ghost), and the log of lists
returned to readers. -/
structure Sys where
  buf : SharedBuffer
  wphase : WPhase
  pending : List PriceData
  dones : List PriceData
  log : List (List PriceData)
deriving DecidableEq, Repr

/-- One interleaving step: a writer micro-step of `push`, or one
lock-protected reader `getHistory` (enabled only when the writer does
not hold the lock). -/
inductive SysStep : Sys → Sys → Prop where
  | acquire (s : Sys) (d : PriceData) (rest : List PriceData) :
      s.wphase = WPhase.idle → s.pending = d :: rest →
      SysStep s { s with wphase := WPhase.locked d, pending := rest }
  | appendW (s : Sys) (d : PriceData) :
      s.wphase = WPhase.locked d →
      SysStep s { s with buf := s.buf.appendRaw d,
                         wphase := WPhase.appended d }
  | trimW (s : Sys) (d : PriceData) :
      s.wphase = WPhase.appended d →
      SysStep s { s with buf := s.buf.trimKey d.symbol,
                         wphase := WPhase.trimmed d }
  | countW (s : Sys) (d : PriceData) :
      s.wphase = WPhase.trimmed d →
      SysStep s { s with buf := s.buf.incWrites,
                         wphase := WPhase.counted d }
  | release (s : Sys) (d : PriceData) :
      s.wphase = WPhase.counted d →
      SysStep s { s with wphase := WPhase.idle, dones := s.dones ++ [d] }
  | readH (s : Sys) (key : String) (count : Nat) :
      s.wphase = WPhase.idle →
      SysStep s { s with buf := (s.buf.getHistory key count).2,
                         log := s.log ++ [(s.buf.getHistory key count).1] }

/-- Initial state: fresh buffer of capacity `N`, writer idle with a
script of pushes, no reads logged. -/
def initSys (N : Nat) (ds : List PriceData) : Sys :=
  ⟨mkBuffer N, WPhase.idle, ds, [], []⟩

/-- Reachability in the interleaving model. -/
def SysReach (s t : Sys) : Prop :=
  Relation.ReflTransGen SysStep s t

/-- A list is the point-in-time `getHistory` window of some completed
prefix of the push script `ds`. -/
def SnapshotOfPrefix (N : Nat) (ds : List PriceData)
    (l : List PriceData) : Prop :=
  ∃ p q, p ++ q = ds
    ∧ ∃ (key : String) (count : Nat),
        l = ((pushAll (mkBuffer N) p).getHistory key count).1

/-- The second read log extends the first: previously returned lists
are never altered. -/
def LogExtends (l1 l2 : List (List PriceData)) : Prop :=
  ∃ ext, l1 ++ ext = l2

/-- Writer-phase part of the coupling invariant: the shared map and the
write counter as determined by the completed pushes and the statement
the writer is about to execute. -/
def PhaseInv (N : Nat) (ds : List PriceData) (buf : SharedBuffer)
    (w : WPhase) (pending dones : List PriceData) : Prop :=
  match w with
  | WPhase.idle =>
      buf.price_history = (pushAll (mkBuffer N) dones).price_history
      ∧ buf.total_writes = dones.length
      ∧ ds = dones ++ pending
  | WPhase.locked d =>
      buf.price_history = (pushAll (mkBuffer N) dones).price_history
      ∧ buf.total_writes = dones.length
      ∧ ds = dones ++ d :: pending
  | WPhase.appended d =>
      buf.price_history =
        ((pushAll (mkBuffer N) dones).appendRaw d).price_history
      ∧ buf.total_writes = dones.length
      ∧ ds = dones ++ d :: pending
  | WPhase.trimmed d =>
      buf.price_history =
        ((pushAll (mkBuffer N) dones).push d).price_history
      ∧ buf.total_writes = dones.length
      ∧ ds = dones ++ d :: pending
  | WPhase.counted d =>
      buf.price_history =
        ((pushAll (mkBuffer N) dones).push d).price_history
      ∧ buf.total_writes = dones.length + 1
      ∧ ds = dones ++ d :: pending

/-- Coupling invariant: map and write counter are determined by the
completed pushes and the writer's phase; every logged read is the
window of a completed prefix. -/
def SysInv (N : Nat) (ds : List PriceData) (s : Sys) : Prop :=
  s.buf.max_history_size = N
  ∧ PhaseInv N ds s.buf s.wphase s.pending s.dones
  ∧ (∀ l ∈ s.log, SnapshotOfPrefix N ds l)

theorem pushAll_max (b : SharedBuffer) (ds : List PriceData) :
    (pushAll b ds).max_history_size = b.max_history_size := by
  induction ds generalizing b with
  | nil => rfl
  | cons d rest ih =>
    show (pushAll (b.push d) rest).max_history_size = _
    rw [ih, push_max]

theorem pushAll_append_one (b : SharedBuffer) (l : List PriceData)
    (d : PriceData) : pushAll b (l ++ [d]) = (pushAll b l).push d := by
  unfold pushAll
  rw [List.foldl_append]
  rfl

theorem getHistory_snd_max (b : SharedBuffer) (s : String) (c : Nat) :
    (b.getHistory s c).2.max_history_size = b.max_history_size := by
  rw [getHistory_snd]
  by_cases hc : (lookupHistory b.price_history s).isSome <;> simp [hc]

theorem getHistory_snd_writes (b : SharedBuffer) (s : String) (c : Nat) :
    (b.getHistory s c).2.total_writes = b.total_writes := by
  rw [getHistory_snd]
  by_cases hc : (lookupHistory b.price_history s).isSome <;> simp [hc]

theorem getHistory_fst_congr (b b' : SharedBuffer)
    (h : b.price_history = b'.price_history) (k : String) (c : Nat) :
    (b.getHistory k c).1 = (b'.getHistory k c).1 := by
  rw [getHistory_fst, getHistory_fst]
  unfold histOf
  rw [h]

theorem SysInv_step (N : Nat) (ds : List PriceData) (s t : Sys)
    (hstep : SysStep s t) (hinv : SysInv N ds s) : SysInv N ds t := by
  obtain ⟨hmax, hph, hlog⟩ := hinv
  cases hstep with
  | acquire d rest hw hp =>
    rw [hw] at hph
    obtain ⟨h1, h2, h3⟩ := hph
    exact ⟨hmax, ⟨h1, h2, by rw [h3, hp]⟩, fun l hl => hlog l hl⟩
  | appendW d hw =>
    rw [hw] at hph
    obtain ⟨h1, h2, h3⟩ := hph
    refine ⟨hmax, ⟨?_, h2, h3⟩, fun l hl => hlog l hl⟩
    show appendEntry s.buf.price_history d.symbol d =
      appendEntry (pushAll (mkBuffer N) s.dones).price_history d.symbol d
    rw [h1]
  | trimW d hw =>
    rw [hw] at hph
    obtain ⟨h1, h2, h3⟩ := hph
    refine ⟨hmax, ⟨?_, h2, h3⟩, fun l hl => hlog l hl⟩
    show trimEntry s.buf.price_history d.symbol s.buf.max_history_size =
      trimEntry
        (appendEntry (pushAll (mkBuffer N) s.dones).price_history d.symbol d)
        d.symbol (pushAll (mkBuffer N) s.dones).max_history_size
    rw [h1, hmax, pushAll_max]
    rfl
  | countW d hw =>
    rw [hw] at hph
    obtain ⟨h1, h2, h3⟩ := hph
    refine ⟨hmax, ⟨h1, ?_, h3⟩, fun l hl => hlog l hl⟩
    show s.buf.total_writes + 1 = s.dones.length + 1
    rw [h2]
  | release d hw =>
    rw [hw] at hph
    obtain ⟨h1, h2, h3⟩ := hph
    refine ⟨hmax, ⟨?_, ?_, ?_⟩, fun l hl => hlog l hl⟩
    · rw [pushAll_append_one]
      exact h1
    · rw [h2]
      simp
    · rw [h3]
      simp
  | readH key count hw =>
    rw [hw] at hph
    obtain ⟨h1, h2, h3⟩ := hph
    refine ⟨?_, ?_, ?_⟩
    · show (s.buf.getHistory key count).2.max_history_size = N
      rw [getHistory_snd_max]
      exact hmax
    · show PhaseInv N ds (s.buf.getHistory key count).2 s.wphase
        s.pending s.dones
      rw [hw]
      refine ⟨?_, ?_, h3⟩
      · show (s.buf.getHistory key count).2.price_history = _
        rw [getHistory_snd_ph]
        exact h1
      · show (s.buf.getHistory key count).2.total_writes = _
        rw [getHistory_snd_writes]
        exact h2
    · intro l hl
      rcases List.mem_append.mp hl with hl | hl
      · exact hlog l hl
      · rw [List.mem_singleton] at hl
        subst hl
        refine ⟨s.dones, s.pending, h3.symm, key, count, ?_⟩
        exact getHistory_fst_congr s.buf (pushAll (mkBuffer N) s.dones) h1
          key count

theorem SysInv_reach (N : Nat) (ds : List PriceData) (s : Sys)
    (h : SysReach (initSys N ds) s) : SysInv N ds s := by
  induction h with
  | refl =>
    refine ⟨rfl, ⟨rfl, rfl, rfl⟩, ?_⟩
    intro l hl
    simp [initSys] at hl
  | tail hsteps hstep ih =>
    exact SysInv_step N ds _ _ hstep ih

theorem SysStep_log_mono (s t : Sys) (h : SysStep s t) :
    LogExtends s.log t.log := by
  cases h with
  | acquire d rest hw hp => exact ⟨[], by simp⟩
  | appendW d hw => exact ⟨[], by simp⟩
  | trimW d hw => exact ⟨[], by simp⟩
  | countW d hw => exact ⟨[], by simp⟩
  | release d hw => exact ⟨[], by simp⟩
  | readH key count hw => exact ⟨[(s.buf.getHistory key count).1], rfl⟩

theorem SysReach_log_mono (s t : Sys) (h : SysReach s t) :
    LogExtends s.log t.log := by
  induction h with
  | refl => exact ⟨[], by simp⟩
  | tail hsteps hstep ih =>
    obtain ⟨e1, he1⟩ := ih
    obtain ⟨e2, he2⟩ := SysStep_log_mono _ _ hstep
    exact ⟨e1 ++ e2, by rw [← he2, ← he1, List.append_assoc]⟩

/-- C9: in every interleaving of the statement-level writer with
lock-respecting readers, each list ever returned by `getHistory` is the
point-in-time window of a completed prefix of the push script — never a
partially-appended state — and later steps of the system never alter
the returned lists (the read log only grows). -/
theorem claim9_snapshot_isolation :
    ∀ (N : Nat) (ds : List PriceData) (s : Sys),
      SysReach (initSys N ds) s →
      (∀ l ∈ s.log, SnapshotOfPrefix N ds l)
      ∧ (∀ t : Sys, SysReach s t → LogExtends s.log t.log) := by
  intro N ds s hreach
  exact ⟨(SysInv_reach N ds s hreach).2.2,
         fun t ht => SysReach_log_mono s t ht⟩

/-- Witness for C9: after one reader step on a fresh capacity-2 system,
the logged read is the window of a completed prefix, and the log of the
initial state is extended, not altered. -/
theorem claim9_witness :
    SnapshotOfPrefix 2 [] ((mkBuffer 2).getHistory "X" 3).1
    ∧ LogExtends ([] : List (List PriceData))
        [((mkBuffer 2).getHistory "X" 3).1] := by
  constructor
  · exact (claim9_snapshot_isolation 2 [] _
      (Relation.ReflTransGen.single
        (SysStep.readH (initSys 2 []) "X" 3 rfl))).1 _ (by simp [initSys])
  · exact (claim9_snapshot_isolation 2 [] (initSys 2 [])
      Relation.ReflTransGen.refl).2 _
      (Relation.ReflTransGen.single
        (SysStep.readH (initSys 2 []) "X" 3 rfl))

end StockSim
